import Mathlib

/-!
# Verification of the Clair Obscur configuration core

Shallow embedding of the configuration transformation and persistence engine
of `src/core/backend.py`, `src/main.py` and `src/core/frontend.py`.

An INI document (a `configparser.ConfigParser` with `optionxform = str`, i.e.
case-sensitive, order-preserving) is modelled as an ordered association list
of sections, each section an ordered association list of key/value pairs.
TOML scalar values are modelled after the `str(value)` conversion the code
applies to them, i.e. as strings.

The on-disk state touched by the code (the target `Engine.ini`, its backup
file, the config directory, the file permission bits) is modelled by the
record `FS`; each mutating Python method becomes a function on `FS`.
-/

set_option autoImplicit false

namespace ClairConfig

/-- A parsed INI section: ordered key/value pairs (case-sensitive keys). -/
abbrev IniSection := List (String × String)

/-- A parsed INI document: ordered sections, each with its pairs. -/
abbrev Doc := List (String × IniSection)

/-- `section in config` (`configparser.__contains__` over section names). -/
def hasSection (d : Doc) (sec : String) : Bool :=
  d.any (fun p => p.1 = sec)

/-- `config[section][key] = value` at section level: overwrite the value of an
existing key in place, otherwise append the pair at the end (Python dict
insertion-order semantics). -/
def setKey (s : IniSection) (k v : String) : IniSection :=
  if s.any (fun p => p.1 = k) then s.map (fun p => if p.1 = k then (k, v) else p)
  else s ++ [(k, v)]

/-- Sequence of `config[section][key] = value` assignments inside one section
(the inner `for key, value in settings.items()` loop). -/
def setKeys (s : IniSection) : List (String × String) → IniSection
  | [] => s
  | (k, v) :: rest => setKeys (setKey s k v) rest

/-- `config[section][key] = value` at document level: update every entry whose
name is `sec` (a well-formed document has at most one). -/
def setInSection (d : Doc) (sec k v : String) : Doc :=
  d.map (fun p => if p.1 = sec then (p.1, setKey p.2 k v) else p)

/-- The inner assignment loop of `apply_custom_settings` / `create_engine_ini`
run against a whole document. -/
def applyKeys (d : Doc) (sec : String) : List (String × String) → Doc
  | [] => d
  | (k, v) :: rest => applyKeys (setInSection d sec k v) sec rest

/-- `if section not in config: config[section] = {}`. -/
def ensureSection (d : Doc) (sec : String) : Doc :=
  if hasSection d sec then d else d ++ [(sec, [])]

/-- One section of the overlay loop of `apply_custom_settings`:
create the section if missing, then assign each key. -/
def applySection (d : Doc) (sec : String) (ks : List (String × String)) : Doc :=
  applyKeys (ensureSection d sec) sec ks

/-- The full overlay loop of `apply_custom_settings`
(`for section, settings in custom_settings.items(): ...`): merge `o` on top
of `d`, later values overwriting earlier ones at (section, key) granularity. -/
def applySettings (d : Doc) : Doc → Doc
  | [] => d
  | (sec, ks) :: rest => applySettings (applySection d sec ks) rest

/-- Closed form of `applyKeys`: update each entry named `sec` by assigning the
whole key list into it. -/
def updSec (d : Doc) (sec : String) (ks : List (String × String)) : Doc :=
  d.map (fun p => if p.1 = sec then (p.1, setKeys p.2 ks) else p)

/-- `config[section] = {}` on a ConfigParser: `remove_section` followed by
`read_dict({section: {}})`, which re-adds the section empty at the end.
This is the unconditional assignment used by the preset loop of
`create_engine_ini`. -/
def resetSection (d : Doc) (sec : String) : Doc :=
  (d.filter (fun p => p.1 ≠ sec)) ++ [(sec, [])]

/-- The preset loop of `create_engine_ini`: for each preset section,
`config[section] = {}` then assign each key. -/
def addPresetDoc (d : Doc) : Doc → Doc
  | [] => d
  | (sec, ks) :: rest => addPresetDoc (applyKeys (resetSection d sec) sec ks) rest

/-- First-match lookup of a key inside a section (`configparser` access). -/
def lookupSec : IniSection → String → Option String
  | [], _ => none
  | (k0, v) :: rest, k => if k = k0 then some v else lookupSec rest k

/-- First-match lookup of (section, key) in a document. -/
def lookupDoc : Doc → String → String → Option String
  | [], _, _ => none
  | (n, s) :: rest, sec, k => if sec = n then lookupSec s k else lookupDoc rest sec k

/-- The value the *last* assignment for key `k` in an update list would leave
behind (used to characterise the result of `setKeys`). -/
def lastVal : List (String × String) → String → Option String
  | [], _ => none
  | (k0, v0) :: rest, k =>
    match lastVal rest k with
    | some v => some v
    | none => if k = k0 then some v0 else none

/-- The value the last assignment for `(sec, k)` in an overlay document would
leave behind (used to characterise the result of `applySettings`). -/
def lastValDoc : Doc → String → String → Option String
  | [], _, _ => none
  | (n, ks) :: rest, sec, k =>
    match lastValDoc rest sec k with
    | some v => some v
    | none => if sec = n then lastVal ks k else none

/-- Key names of a section, in order. -/
def secKeys (s : IniSection) : List String := s.map Prod.fst

/-- Section names of a document, in order. -/
def docSecs (d : Doc) : List String := d.map Prod.fst

/-- A section with pairwise distinct keys (the image of a Python dict). -/
def NodupKeys (s : IniSection) : Prop := (secKeys s).Nodup

/-- A document with pairwise distinct section names whose sections all have
pairwise distinct keys (the image of a Python dict of dicts). -/
def DocWF (d : Doc) : Prop := (docSecs d).Nodup ∧ ∀ p ∈ d, NodupKeys p.2

instance (s : IniSection) : Decidable (NodupKeys s) := by
  unfold NodupKeys; infer_instance

instance (d : Doc) : Decidable (DocWF d) := by
  unfold DocWF; exact instDecidableAnd

/-! ## The catalog (`config.toml` as parsed by `tomllib`) and the file system -/

/-- The parsed `config.toml` data the constructor loads: the preset catalog,
the engine-tweaks fragment and the two auto-detected directory paths.  Values
are modelled after the `str()` conversion applied on use. -/
structure TomlConfig where
  presets : List (String × Doc)
  engine_tweaks : Doc
  steam_path : String
  gamepass_path : String
deriving Repr, DecidableEq

/-- Python `dict.get` / `dict.__getitem__` lookup on a string-keyed mapping. -/
def dictGet {α : Type} (d : List (String × α)) (k : String) : Option α :=
  (d.find? (fun p => p.1 = k)).map (fun p => p.2)

/-- The on-disk state the core manages: the target `Engine.ini` content
(`none` = file absent), the backup file content, whether the config directory
exists, and the permission bits of the target file. -/
structure FS where
  engineIni : Option Doc
  backupFile : Option Doc
  dirExists : Bool
  mode : Nat
deriving Repr, DecidableEq

/-! ## Operations of `ClairObscurConfig` (src/core/backend.py, src/main.py) -/

/-- `get_performance_preset`: `self.toml_config["presets"].get(preset,
self.toml_config["presets"]["balanced"])`.  Python evaluates the default
argument `presets["balanced"]` first, so a catalog without a `balanced` entry
raises `KeyError` even for known names; the lookup itself never raises. -/
def get_performance_preset (cfg : TomlConfig) (preset : String) : Except String Doc :=
  match dictGet cfg.presets "balanced" with
  | none => .error "KeyError: balanced"
  | some bal => .ok ((dictGet cfg.presets preset).getD bal)

/-- `get_engine_tweaks`: returns the tweaks fragment of the catalog. -/
def get_engine_tweaks (cfg : TomlConfig) : Doc := cfg.engine_tweaks

/-- `pathlib.PurePath.with_suffix` on a file name: drop the part of the name
from its last dot on (a dot in leading position does not count as a suffix)
and append the new suffix. -/
def withSuffix (name suffix : String) : String :=
  let cs := name.data
  let rev := cs.reverse
  match rev.findIdx? (fun c => c = '.') with
  | none => String.mk (cs ++ suffix.data)
  | some i =>
    if i + 1 = cs.length then String.mk (cs ++ suffix.data)
    else String.mk ((rev.drop (i + 1)).reverse ++ suffix.data)

/-- The backup file name: `engine_ini_path.with_suffix(".ini.backup")` for the
fixed target file name `Engine.ini`. -/
def backupFileName : String := withSuffix "Engine.ini" ".ini.backup"

/-- `backup_existing_config`: if `Engine.ini` exists, copy it to the backup
path (overwriting any previous backup) and return the path, else return
`None`. -/
def backup_existing_config (fs : FS) : FS × Option String :=
  match fs.engineIni with
  | some _ => ({ fs with backupFile := fs.engineIni }, some backupFileName)
  | none => (fs, none)

/-- `read_config` as a document: empty document when the file is absent. -/
def readDoc (fs : FS) : Doc :=
  match fs.engineIni with
  | some d => d
  | none => []

/-- `apply_custom_settings`: read the existing file (empty if absent), merge
the overlay on top, write the result back. -/
def apply_custom_settings (fs : FS) (o : Doc) : FS :=
  { fs with engineIni := some (applySettings (readDoc fs) o) }

/-- The document `create_engine_ini` builds: preset sections assigned into a
fresh parser, then the tweaks fragment merged on top when requested. -/
def create_engine_doc (p tweaks : Doc) (includeTweaks : Bool) : Doc :=
  let base := addPresetDoc [] p
  if includeTweaks then applySettings base tweaks else base

/-- `create_engine_ini`: resolve the preset, build the document, overwrite the
target file with it. -/
def create_engine_ini (cfg : TomlConfig) (preset : String) (includeTweaks : Bool)
    (fs : FS) : Except String FS := do
  let p ← get_performance_preset cfg preset
  pure { fs with engineIni := some (create_engine_doc p cfg.engine_tweaks includeTweaks) }

/-- `st_mode & ~0o200` for modes below `2^16` (Python ints are unbounded, but
`st_mode` fits in 16 bits; the mask is `2^16 - 1 - 0o200`). -/
def permMaskNotWrite : Nat := 65407

/-- `set_read_only`: on an existing file, `chmod(st_mode & ~0o200)` for `True`
and `chmod(st_mode | 0o200)` for `False`; no-op when the file is absent. -/
def set_read_only (fs : FS) (readOnly : Bool) : FS :=
  match fs.engineIni with
  | none => fs
  | some _ =>
    if readOnly then { fs with mode := fs.mode &&& permMaskNotWrite }
    else { fs with mode := fs.mode ||| 128 }

/-- Path resolution of the constructor: a custom path wins, otherwise the
GamePass or Steam directory from the catalog is appended to the home
directory. -/
def resolveConfigPath (cfg : TomlConfig) (home : String) (customPath : Option String)
    (gameVersion : String) : String :=
  match customPath with
  | some p => p
  | none =>
    if gameVersion = "gamepass" then home ++ "/" ++ cfg.gamepass_path
    else home ++ "/" ++ cfg.steam_path

/-- The filesystem effect of `ClairObscurConfig.__init__`:
`self.config_path.mkdir(parents=True, exist_ok=True)`, run unconditionally on
every construction before any other operation is available. -/
def initConfigEffect (fs : FS) : FS := { fs with dirExists := true }

/-! ## Caller flows (src/main.py, src/core/frontend.py) -/

/-- The `custom` CLI command (`main`): build `{section: dict(settings)}` and
call `apply_custom_settings` — with no backup call. -/
def cliCustomCommand (fs : FS) (sec : String) (settings : List (String × String)) : FS :=
  apply_custom_settings fs [(sec, settings)]

/-- The `create` CLI command (`main`): backup, then `create_engine_ini` (an
exception there propagates), then optionally `set_read_only(True)`. -/
def cliCreateCommand (cfg : TomlConfig) (preset : String) (noTweaks readOnly : Bool)
    (fs : FS) : Except String FS :=
  match create_engine_ini cfg preset (!noTweaks) (backup_existing_config fs).1 with
  | .error e => .error e
  | .ok fs2 => .ok (if readOnly then set_read_only fs2 true else fs2)

/-- `ClairConfigTUI.action_save_changes` (same shape as
`ClairConfigFlet.save_changes`): backup once, apply the gathered UI settings,
optionally apply the tweaks fragment as a second overlay, then set or clear
read-only. -/
def tuiSaveChanges (cfg : TomlConfig) (uiSettings : Doc) (includeTweaks readOnly : Bool)
    (fs : FS) : FS :=
  let fs1 := (backup_existing_config fs).1
  let fs2 := apply_custom_settings fs1 uiSettings
  let fs3 := if includeTweaks then apply_custom_settings fs2 cfg.engine_tweaks else fs2
  set_read_only fs3 readOnly

/-! ## Value mapper (gather_ui_values / apply_preset_to_ui) -/

/-- The switch branch of `gather_ui_values`: the raw switch serialises to
`"True"`/`"False"`, then the fog-family labels keep the words while every
other switch maps to `"1"`/`"0"`. -/
def switch_to_engine (label : String) (switchOn : Bool) : String :=
  let value := if switchOn then "True" else "False"
  if label = "Fog" ∨ label = "Volumetric Fog" then
    (if value = "True" then "True" else "False")
  else
    (if value = "True" then "1" else "0")

/-- The switch-control labels of the UI together with the engine keys
`config_map` assigns them. -/
def switchConfigMap : List (String × String) :=
  [("Fog", "r.Fog"),
   ("Volumetric Fog", "r.VolumetricFog"),
   ("Chromatic Aberration", "r.SceneColorFringeQuality"),
   ("Disable Distortion Effects", "r.DistortionEffects"),
   ("Film Grain", "r.FilmGrain"),
   ("Grain Quantization", "r.Tonemapper.GrainQuantization")]

/-- The 6-level quality table of `apply_preset_to_ui` / `apply_preset`. -/
def qualityLabels6 : List String :=
  ["Disabled", "Low", "Medium", "High", "Very High", "Ultra"]

/-- Decimal value of a digit string. -/
def digitsToNat (cs : List Char) : Nat :=
  cs.foldl (fun a c => a * 10 + (c.toNat - 48)) 0

/-- Python `int(x)` on the string forms occurring here: an optional minus sign
followed by decimal digits; anything else raises `ValueError` (`none`). -/
def pyInt (s : String) : Option Int :=
  let cs := s.data
  if cs ≠ [] ∧ cs.all Char.isDigit then some (digitsToNat cs)
  else
    match cs with
    | '-' :: rest =>
      if rest ≠ [] ∧ rest.all Char.isDigit then some (-(digitsToNat rest : Int))
      else none
    | _ => none

/-- Python list indexing `xs[i]`: a negative index counts from the end; an
index out of range raises `IndexError` (`none`). -/
def pyListGet (xs : List String) (i : Int) : Option String :=
  let j : Int := if i < 0 then i + xs.length else i
  if 0 ≤ j then xs.get? j.toNat else none

/-- The engine-to-UI converter for the 6-level quality keys:
`["Disabled", "Low", "Medium", "High", "Very High", "Ultra"][min(int(x), 5)]`. -/
def from_engine_quality6 (x : String) : Option String :=
  (pyInt x).bind (fun n => pyListGet qualityLabels6 (min n 5))

/-! ## Section-level lemmas about `setKey` / `setKeys` -/

@[simp] theorem secKeys_nil : secKeys [] = [] := rfl

@[simp] theorem secKeys_cons (p : String × String) (s : IniSection) :
    secKeys (p :: s) = p.1 :: secKeys s := rfl

@[simp] theorem secKeys_app (s t : IniSection) :
    secKeys (s ++ t) = secKeys s ++ secKeys t := List.map_append _ _ _

theorem mem_secKeys {s : IniSection} {k : String} :
    k ∈ secKeys s ↔ ∃ p ∈ s, p.1 = k := by
  simp [secKeys, List.mem_map]

theorem any_key_eq_mem (s : IniSection) (k : String) :
    (s.any (fun p => p.1 = k)) = true ↔ k ∈ secKeys s := by
  simp [List.any_eq_true, mem_secKeys]

theorem setKey_mem {s : IniSection} {k : String} (v : String) (h : k ∈ secKeys s) :
    setKey s k v = s.map (fun p => if p.1 = k then (k, v) else p) := by
  rw [setKey, if_pos ((any_key_eq_mem s k).mpr h)]

theorem setKey_not_mem {s : IniSection} {k : String} (v : String) (h : k ∉ secKeys s) :
    setKey s k v = s ++ [(k, v)] := by
  rw [setKey, if_neg]
  intro hc
  exact h ((any_key_eq_mem s k).mp hc)

theorem map_keyfun_id {s : IniSection} {k : String} (v : String) (h : k ∉ secKeys s) :
    s.map (fun p => if p.1 = k then (k, v) else p) = s := by
  induction s with
  | nil => rfl
  | cons p rest ih =>
    simp only [secKeys_cons, List.mem_cons, not_or] at h
    simp only [List.map_cons, if_neg (fun hc : p.1 = k => h.1 hc.symm), ih h.2]

theorem secKeys_map_keyfun (s : IniSection) (k v : String) :
    secKeys (s.map (fun p => if p.1 = k then (k, v) else p)) = secKeys s := by
  induction s with
  | nil => rfl
  | cons p rest ih =>
    by_cases h : p.1 = k <;> simp [h, ih]

theorem secKeys_setKey (s : IniSection) (k v : String) :
    secKeys (setKey s k v) = if k ∈ secKeys s then secKeys s else secKeys s ++ [k] := by
  by_cases h : k ∈ secKeys s
  · rw [setKey_mem v h, if_pos h, secKeys_map_keyfun]
  · rw [setKey_not_mem v h, if_neg h]; simp

theorem mem_secKeys_setKey_self (s : IniSection) (k v : String) :
    k ∈ secKeys (setKey s k v) := by
  rw [secKeys_setKey]
  by_cases h : k ∈ secKeys s <;> simp [h]

theorem mem_secKeys_setKey_mono {s : IniSection} {k' : String} (k v : String)
    (h : k' ∈ secKeys s) : k' ∈ secKeys (setKey s k v) := by
  rw [secKeys_setKey]
  by_cases hm : k ∈ secKeys s <;> simp [hm, h]

theorem setKey_collapse (s : IniSection) (k v0 v : String) :
    setKey (setKey s k v0) k v = setKey s k v := by
  by_cases h : k ∈ secKeys s
  · rw [setKey_mem v0 h, setKey_mem v (by rw [secKeys_map_keyfun]; exact h),
      List.map_map, setKey_mem v h]
    congr 1
    funext p
    by_cases hp : p.1 = k <;> simp [hp]
  · rw [setKey_not_mem v0 h,
      setKey_mem v (by simp [secKeys_setKey, h, setKey_not_mem]),
      List.map_append, map_keyfun_id v h, setKey_not_mem v h]
    simp

theorem setKeys_append (t u : List (String × String)) :
    ∀ s, setKeys s (t ++ u) = setKeys (setKeys s t) u := by
  induction t with
  | nil => intro s; rfl
  | cons p t' ih => intro s; simpa [setKeys] using ih (setKey s p.1 p.2)

theorem setKeys_singleton (s : IniSection) (k v : String) :
    setKeys s [(k, v)] = setKey s k v := rfl

theorem setKey_comm {s : IniSection} {k k1 : String} (v v1 : String)
    (hne : k ≠ k1) (hmem : k ∈ secKeys s) :
    setKey (setKey s k1 v1) k v = setKey (setKey s k v) k1 v1 := by
  by_cases h1 : k1 ∈ secKeys s
  · rw [setKey_mem v1 h1, setKey_mem v (by rw [secKeys_map_keyfun]; exact hmem),
      setKey_mem v hmem, setKey_mem v1 (by rw [secKeys_map_keyfun]; exact h1),
      List.map_map, List.map_map]
    congr 1
    funext p
    by_cases hk : p.1 = k
    · simp [hk, hne, Ne.symm hne]
    · by_cases hk1 : p.1 = k1 <;> simp [hk, hk1, hne, Ne.symm hne]
  · have e1 : setKey (setKey s k1 v1) k v
        = s.map (fun p => if p.1 = k then (k, v) else p) ++ [(k1, v1)] := by
      rw [setKey_not_mem v1 h1, setKey_mem v (by simp [hmem]), List.map_append]
      simp [Ne.symm hne]
    have e2 : setKey (setKey s k v) k1 v1
        = s.map (fun p => if p.1 = k then (k, v) else p) ++ [(k1, v1)] := by
      rw [setKey_mem v hmem, setKey_not_mem v1 (by rw [secKeys_map_keyfun]; exact h1)]
    rw [e1, e2]

theorem setKey_setKeys_comm {u : List (String × String)} {k : String} (v : String)
    (hu : k ∉ secKeys u) :
    ∀ s, k ∈ secKeys s → setKey (setKeys s u) k v = setKeys (setKey s k v) u := by
  induction u with
  | nil => intro s _; rfl
  | cons p u' ih =>
    intro s hmem
    simp only [secKeys_cons, List.mem_cons, not_or] at hu
    have hne : k ≠ p.1 := hu.1
    calc setKey (setKeys s (p :: u')) k v
        = setKey (setKeys (setKey s p.1 p.2) u') k v := rfl
      _ = setKeys (setKey (setKey s p.1 p.2) k v) u' :=
          ih hu.2 _ (mem_secKeys_setKey_mono _ _ hmem)
      _ = setKeys (setKey (setKey s k v) p.1 p.2) u' := by
          rw [setKey_comm v p.2 hne hmem]
      _ = setKeys (setKey s k v) (p :: u') := rfl

theorem setKeys_setKey {t : List (String × String)} {k : String} (v : String)
    (ht : NodupKeys t) :
    ∀ s, setKeys s (setKey t k v) = setKey (setKeys s t) k v := by
  induction t with
  | nil =>
    intro s
    rw [setKey_not_mem v (by simp)]
    rfl
  | cons p t' ih =>
    intro s
    obtain ⟨k0, v0⟩ := p
    have ht' : NodupKeys t' := (List.nodup_cons.mp ht).2
    have hk0 : k0 ∉ secKeys t' := (List.nodup_cons.mp ht).1
    by_cases hkk : k0 = k
    · subst hkk
      rw [setKey_mem v (by simp)]
      simp only [List.map_cons, if_pos rfl, map_keyfun_id v hk0]
      calc setKeys s ((k0, v) :: t')
          = setKeys (setKey s k0 v) t' := rfl
        _ = setKeys (setKey (setKey s k0 v0) k0 v) t' := by
            rw [setKey_collapse]
        _ = setKey (setKeys (setKey s k0 v0) t') k0 v := by
            rw [setKey_setKeys_comm v hk0 _ (mem_secKeys_setKey_self _ _ _)]
        _ = setKey (setKeys s ((k0, v0) :: t')) k0 v := rfl
    · by_cases hk' : k ∈ secKeys t'
      · rw [setKey_mem v (by simp [hk'])]
        simp only [List.map_cons, if_neg (fun hc : k0 = k => hkk hc)]
        calc setKeys s ((k0, v0) :: (t'.map (fun p => if p.1 = k then (k, v) else p)))
            = setKeys (setKey s k0 v0) (t'.map (fun p => if p.1 = k then (k, v) else p)) := rfl
          _ = setKeys (setKey s k0 v0) (setKey t' k v) := by rw [setKey_mem v hk']
          _ = setKey (setKeys (setKey s k0 v0) t') k v := ih ht' _
          _ = setKey (setKeys s ((k0, v0) :: t')) k v := rfl
      · have hnm : k ∉ secKeys ((k0, v0) :: t') := by
          simp only [secKeys_cons, List.mem_cons, not_or]
          exact ⟨fun hc => hkk hc.symm, hk'⟩
        rw [setKey_not_mem v hnm, setKeys_append, setKeys_singleton]

theorem nodupKeys_setKey {t : IniSection} (k v : String) (ht : NodupKeys t) :
    NodupKeys (setKey t k v) := by
  unfold NodupKeys at *
  rw [secKeys_setKey]
  by_cases h : k ∈ secKeys t
  · simpa [h] using ht
  · simp [h, List.nodup_append, ht]

theorem setKeys_assoc {u : List (String × String)} :
    ∀ t, NodupKeys t → ∀ s, setKeys s (setKeys t u) = setKeys (setKeys s t) u := by
  induction u with
  | nil => intro t _ s; rfl
  | cons p u' ih =>
    intro t ht s
    calc setKeys s (setKeys t (p :: u'))
        = setKeys s (setKeys (setKey t p.1 p.2) u') := rfl
      _ = setKeys (setKeys s (setKey t p.1 p.2)) u' :=
          ih _ (nodupKeys_setKey p.1 p.2 ht) s
      _ = setKeys (setKey (setKeys s t) p.1 p.2) u' := by
          rw [setKeys_setKey p.2 ht]
      _ = setKeys (setKeys s t) (p :: u') := rfl

/-! ## Document-level lemmas about `applySection` / `applySettings` -/

@[simp] theorem docSecs_nil : docSecs [] = [] := rfl

@[simp] theorem docSecs_cons (p : String × IniSection) (d : Doc) :
    docSecs (p :: d) = p.1 :: docSecs d := rfl

@[simp] theorem docSecs_app (d e : Doc) :
    docSecs (d ++ e) = docSecs d ++ docSecs e := List.map_append _ _ _

theorem mem_docSecs {d : Doc} {sec : String} :
    sec ∈ docSecs d ↔ ∃ p ∈ d, p.1 = sec := by
  simp [docSecs, List.mem_map]

theorem hasSection_eq_mem (d : Doc) (sec : String) :
    hasSection d sec = true ↔ sec ∈ docSecs d := by
  simp [hasSection, List.any_eq_true, mem_docSecs]

theorem updSec_app (d e : Doc) (sec : String) (ks : List (String × String)) :
    updSec (d ++ e) sec ks = updSec d sec ks ++ updSec e sec ks := by
  unfold updSec
  exact List.map_append _ _ _

theorem updSec_single_self (sec : String) (s : IniSection) (ks : List (String × String)) :
    updSec [(sec, s)] sec ks = [(sec, setKeys s ks)] := by
  simp [updSec]

theorem updSec_single_other {n sec : String} (s : IniSection)
    (ks : List (String × String)) (h : n ≠ sec) :
    updSec [(n, s)] sec ks = [(n, s)] := by
  simp [updSec, h]

theorem updSec_nilKeys (d : Doc) (sec : String) : updSec d sec [] = d := by
  induction d with
  | nil => rfl
  | cons p rest ih =>
    have hrest : List.map (fun p => if p.1 = sec then (p.1, setKeys p.2 []) else p) rest
        = rest := ih
    unfold updSec
    simp only [List.map_cons, hrest]
    by_cases h : p.1 = sec
    · rw [if_pos h, setKeys]
    · rw [if_neg h]

theorem applyKeys_eq_updSec (sec : String) :
    ∀ (ks : List (String × String)) (d : Doc), applyKeys d sec ks = updSec d sec ks := by
  intro ks
  induction ks with
  | nil => intro d; exact (updSec_nilKeys d sec).symm
  | cons q ks' ih =>
    intro d
    calc applyKeys d sec (q :: ks')
        = applyKeys (setInSection d sec q.1 q.2) sec ks' := rfl
      _ = updSec (setInSection d sec q.1 q.2) sec ks' := ih _
      _ = updSec d sec (q :: ks') := by
          unfold updSec setInSection
          rw [List.map_map]
          congr 1
          funext p
          by_cases h : p.1 = sec <;> simp [h, setKeys]

theorem docSecs_updSec (d : Doc) (sec : String) (ks : List (String × String)) :
    docSecs (updSec d sec ks) = docSecs d := by
  induction d with
  | nil => rfl
  | cons p rest ih =>
    by_cases h : p.1 = sec <;> simp [updSec, h] <;> simpa [updSec] using ih

theorem updSec_not_has {d : Doc} {sec : String} (ks : List (String × String))
    (h : sec ∉ docSecs d) : updSec d sec ks = d := by
  induction d with
  | nil => rfl
  | cons p rest ih =>
    simp only [docSecs_cons, List.mem_cons, not_or] at h
    simp only [updSec, List.map_cons, if_neg (fun hc : p.1 = sec => h.1 hc.symm)]
    have := ih h.2
    unfold updSec at this
    rw [this]

theorem applySection_eq (d : Doc) (sec : String) (ks : List (String × String)) :
    applySection d sec ks
      = if sec ∈ docSecs d then updSec d sec ks else d ++ [(sec, setKeys [] ks)] := by
  unfold applySection ensureSection
  by_cases h : sec ∈ docSecs d
  · rw [if_pos ((hasSection_eq_mem d sec).mpr h), if_pos h, applyKeys_eq_updSec]
  · rw [if_neg (fun hc => h ((hasSection_eq_mem d sec).mp hc)), if_neg h,
      applyKeys_eq_updSec, updSec_app, updSec_not_has (d := d) ks h,
      updSec_single_self]

theorem docSecs_applySection (d : Doc) (sec : String) (ks : List (String × String)) :
    docSecs (applySection d sec ks)
      = if sec ∈ docSecs d then docSecs d else docSecs d ++ [sec] := by
  rw [applySection_eq]
  by_cases h : sec ∈ docSecs d <;> simp [h, docSecs_updSec]

theorem mem_docSecs_applySection {d : Doc} {n : String} (sec : String)
    (ks : List (String × String)) :
    n ∈ docSecs (applySection d sec ks) ↔ n ∈ docSecs d ∨ n = sec := by
  rw [docSecs_applySection]
  by_cases h : sec ∈ docSecs d
  · simp only [if_pos h]
    constructor
    · exact Or.inl
    · rintro (hn | rfl)
      · exact hn
      · exact h
  · simp [if_neg h]

theorem mem_docSecs_applySection_self (d : Doc) (sec : String)
    (ks : List (String × String)) : sec ∈ docSecs (applySection d sec ks) :=
  (mem_docSecs_applySection sec ks).mpr (Or.inr rfl)

theorem applySettings_app (o1 o2 : Doc) :
    ∀ d, applySettings d (o1 ++ o2) = applySettings (applySettings d o1) o2 := by
  induction o1 with
  | nil => intro d; rfl
  | cons q o1' ih => intro d; simpa [applySettings] using ih (applySection d q.1 q.2)

theorem applySettings_singleton (d : Doc) (sec : String) (ks : List (String × String)) :
    applySettings d [(sec, ks)] = applySection d sec ks := rfl

theorem applySection_setKeys {t : List (String × String)} (ht : NodupKeys t)
    (d : Doc) (sec : String) (ks : List (String × String)) :
    applySection d sec (setKeys t ks) = applySection (applySection d sec t) sec ks := by
  by_cases h : sec ∈ docSecs d
  · rw [applySection_eq d sec t, if_pos h,
      applySection_eq d sec (setKeys t ks), if_pos h,
      applySection_eq _ sec ks, if_pos (by rw [docSecs_updSec]; exact h)]
    unfold updSec
    rw [List.map_map]
    congr 1
    funext p
    by_cases hp : p.1 = sec <;> simp [hp, setKeys_assoc t ht]
  · rw [applySection_eq d sec t, if_neg h,
      applySection_eq d sec (setKeys t ks), if_neg h,
      applySection_eq _ sec ks, if_pos (by simp),
      updSec_app, updSec_not_has (d := d) ks h, updSec_single_self,
      setKeys_assoc t ht]

theorem applySection_nilKeys (d : Doc) (sec : String) :
    applySection d sec [] = ensureSection d sec := rfl

theorem applySection_ensure (d : Doc) (sec : String) (ks : List (String × String)) :
    applySection (ensureSection d sec) sec ks = applySection d sec ks := by
  unfold ensureSection
  by_cases h : sec ∈ docSecs d
  · rw [if_pos ((hasSection_eq_mem d sec).mpr h)]
  · rw [if_neg (fun hc => h ((hasSection_eq_mem d sec).mp hc))]
    rw [applySection_eq _ sec ks, if_pos (by simp),
      applySection_eq d sec ks, if_neg h,
      updSec_app, updSec_not_has (d := d) ks h, updSec_single_self]

theorem applySection_setKeysNil (d : Doc) (sec : String) (ks : List (String × String)) :
    applySection d sec (setKeys [] ks) = applySection d sec ks := by
  rw [applySection_setKeys (by simp [NodupKeys]) d sec ks, applySection_nilKeys,
    applySection_ensure]

theorem applySection_comm {d : Doc} {sec n : String}
    (ks t : List (String × String)) (hne : n ≠ sec) (hmem : sec ∈ docSecs d) :
    applySection (applySection d sec ks) n t = applySection (applySection d n t) sec ks := by
  by_cases hn : n ∈ docSecs d
  · rw [applySection_eq d sec ks, if_pos hmem,
      applySection_eq _ n t, if_pos (by rw [docSecs_updSec]; exact hn),
      applySection_eq d n t, if_pos hn,
      applySection_eq _ sec ks, if_pos (by rw [docSecs_updSec]; exact hmem)]
    unfold updSec
    rw [List.map_map, List.map_map]
    congr 1
    funext p
    by_cases hp : p.1 = sec
    · simp [hp, Ne.symm hne, hne]
    · by_cases hpn : p.1 = n <;> simp [hp, hpn, hne, Ne.symm hne]
  · rw [applySection_eq d sec ks, if_pos hmem,
      applySection_eq _ n t, if_neg (by rw [docSecs_updSec]; exact hn),
      applySection_eq d n t, if_neg hn,
      applySection_eq _ sec ks, if_pos (by simp [hmem]),
      updSec_app, updSec_single_other _ _ hne]

theorem applySection_applySettings_comm {u : Doc} {sec : String}
    (ks : List (String × String)) (hu : ∀ q ∈ u, q.1 ≠ sec) :
    ∀ d, sec ∈ docSecs d →
      applySettings (applySection d sec ks) u = applySection (applySettings d u) sec ks := by
  induction u with
  | nil => intro d _; rfl
  | cons q u' ih =>
    intro d hmem
    have hq : q.1 ≠ sec := hu q (List.mem_cons_self q u')
    have hu' : ∀ r ∈ u', r.1 ≠ sec := fun r hr => hu r (List.mem_cons_of_mem q hr)
    calc applySettings (applySection d sec ks) (q :: u')
        = applySettings (applySection (applySection d sec ks) q.1 q.2) u' := rfl
      _ = applySettings (applySection (applySection d q.1 q.2) sec ks) u' := by
          rw [applySection_comm ks q.2 hq hmem]
      _ = applySection (applySettings (applySection d q.1 q.2) u') sec ks :=
          ih hu' _ ((mem_docSecs_applySection q.1 q.2).mpr (Or.inl hmem))
      _ = applySection (applySettings d (q :: u')) sec ks := rfl

theorem nodupKeys_setKeys {s : IniSection} (ks : List (String × String))
    (hs : NodupKeys s) : NodupKeys (setKeys s ks) := by
  induction ks generalizing s with
  | nil => exact hs
  | cons q ks' ih => exact ih (nodupKeys_setKey q.1 q.2 hs)

theorem docWF_applySection {b : Doc} (sec : String) (ks : List (String × String))
    (hb : DocWF b) : DocWF (applySection b sec ks) := by
  obtain ⟨hnames, hsecs⟩ := hb
  rw [applySection_eq]
  by_cases h : sec ∈ docSecs b
  · rw [if_pos h]
    constructor
    · rw [docSecs_updSec]; exact hnames
    · intro p hp
      unfold updSec at hp
      obtain ⟨q, hq, hfq⟩ := List.mem_map.mp hp
      by_cases hq1 : q.1 = sec
      · rw [if_pos hq1] at hfq
        rw [← hfq]
        exact nodupKeys_setKeys ks (hsecs q hq)
      · rw [if_neg hq1] at hfq
        rw [← hfq]
        exact hsecs q hq
  · rw [if_neg h]
    constructor
    · simpa [List.nodup_append] using ⟨hnames, fun hc => h hc⟩
    · intro p hp
      rcases List.mem_append.mp hp with hp1 | hp2
      · exact hsecs p hp1
      · simp only [List.mem_singleton] at hp2
        rw [hp2]
        exact nodupKeys_setKeys ks (by simp [NodupKeys])

theorem applySettings_applySection {sec : String} (ks : List (String × String)) :
    ∀ b, DocWF b → ∀ a,
      applySettings a (applySection b sec ks) = applySection (applySettings a b) sec ks := by
  intro b
  induction b generalizing ks with
  | nil =>
    intro _ a
    rw [applySection_eq [] sec ks, if_neg (by simp)]
    show applySection a sec (setKeys [] ks) = applySection (applySettings a []) sec ks
    rw [applySection_setKeysNil]
    rfl
  | cons q b' ih =>
    intro hb a
    obtain ⟨sec0, t0⟩ := q
    have hnames := hb.1
    have hsec0 : sec0 ∉ docSecs b' := (List.nodup_cons.mp hnames).1
    have hb' : DocWF b' :=
      ⟨(List.nodup_cons.mp hnames).2, fun p hp => hb.2 p (List.mem_cons_of_mem _ hp)⟩
    have ht0 : NodupKeys t0 := hb.2 (sec0, t0) (List.mem_cons_self _ _)
    by_cases hs : sec0 = sec
    · subst hs
      have hform : applySection ((sec0, t0) :: b') sec0 ks = (sec0, setKeys t0 ks) :: b' := by
        have hsplit : ((sec0, t0) :: b' : Doc) = [(sec0, t0)] ++ b' := rfl
        rw [applySection_eq, if_pos (by simp), hsplit, updSec_app,
          updSec_single_self, updSec_not_has (d := b') ks hsec0]
        rfl
      rw [hform]
      calc applySettings a ((sec0, setKeys t0 ks) :: b')
          = applySettings (applySection a sec0 (setKeys t0 ks)) b' := rfl
        _ = applySettings (applySection (applySection a sec0 t0) sec0 ks) b' := by
            rw [applySection_setKeys ht0]
        _ = applySection (applySettings (applySection a sec0 t0) b') sec0 ks := by
            refine applySection_applySettings_comm ks ?_ _ (mem_docSecs_applySection_self _ _ _)
            intro r hr hc
            exact hsec0 (mem_docSecs.mpr ⟨r, hr, hc⟩)
        _ = applySection (applySettings a ((sec0, t0) :: b')) sec0 ks := rfl
    · by_cases hbmem : sec ∈ docSecs b'
      · have hform : applySection ((sec0, t0) :: b') sec ks
            = (sec0, t0) :: applySection b' sec ks := by
          have hsplit : ((sec0, t0) :: b' : Doc) = [(sec0, t0)] ++ b' := rfl
          rw [applySection_eq, if_pos (by simp [hbmem]), hsplit, updSec_app,
            updSec_single_other _ _ hs, applySection_eq b' sec ks, if_pos hbmem]
          rfl
        rw [hform]
        calc applySettings a ((sec0, t0) :: applySection b' sec ks)
            = applySettings (applySection a sec0 t0) (applySection b' sec ks) := rfl
          _ = applySection (applySettings (applySection a sec0 t0) b') sec ks := ih ks hb' _
          _ = applySection (applySettings a ((sec0, t0) :: b')) sec ks := rfl
      · have hnm : sec ∉ docSecs ((sec0, t0) :: b') := by
          simp only [docSecs_cons, List.mem_cons, not_or]
          exact ⟨fun hc => hs hc.symm, hbmem⟩
        rw [applySection_eq _ sec ks, if_neg hnm, applySettings_app]
        show applySection (applySettings a ((sec0, t0) :: b')) sec (setKeys [] ks)
            = applySection (applySettings a ((sec0, t0) :: b')) sec ks
        rw [applySection_setKeysNil]

theorem applySettings_assoc (c : Doc) :
    ∀ b, DocWF b → ∀ a,
      applySettings a (applySettings b c) = applySettings (applySettings a b) c := by
  induction c with
  | nil => intro b _ a; rfl
  | cons q c' ih =>
    intro b hb a
    calc applySettings a (applySettings b (q :: c'))
        = applySettings a (applySettings (applySection b q.1 q.2) c') := rfl
      _ = applySettings (applySettings a (applySection b q.1 q.2)) c' :=
          ih _ (docWF_applySection q.1 q.2 hb) a
      _ = applySettings (applySection (applySettings a b) q.1 q.2) c' := by
          rw [applySettings_applySection q.2 b hb a]
      _ = applySettings (applySettings a b) (q :: c') := rfl

/-! ## Lookup characterisation of the merge -/

@[simp] theorem lookupSec_nil (k : String) : lookupSec [] k = none := rfl

@[simp] theorem lookupSec_cons (k0 v0 : String) (rest : IniSection) (k : String) :
    lookupSec ((k0, v0) :: rest) k = if k = k0 then some v0 else lookupSec rest k := rfl

@[simp] theorem lookupDoc_nil (sec k : String) : lookupDoc [] sec k = none := rfl

@[simp] theorem lookupDoc_cons (n : String) (s : IniSection) (rest : Doc) (sec k : String) :
    lookupDoc ((n, s) :: rest) sec k
      = if sec = n then lookupSec s k else lookupDoc rest sec k := rfl

@[simp] theorem lastVal_nil (k : String) : lastVal [] k = none := rfl

@[simp] theorem lastVal_cons (k0 v0 : String) (rest : List (String × String)) (k : String) :
    lastVal ((k0, v0) :: rest) k
      = match lastVal rest k with
        | some v => some v
        | none => if k = k0 then some v0 else none := rfl

@[simp] theorem lastValDoc_nil (sec k : String) : lastValDoc [] sec k = none := rfl

@[simp] theorem lastValDoc_cons (n : String) (ks : List (String × String)) (rest : Doc)
    (sec k : String) :
    lastValDoc ((n, ks) :: rest) sec k
      = match lastValDoc rest sec k with
        | some v => some v
        | none => if sec = n then lastVal ks k else none := rfl

theorem updSec_cons (n : String) (s : IniSection) (rest : Doc) (sec : String)
    (ks : List (String × String)) :
    updSec ((n, s) :: rest) sec ks
      = (if n = sec then (n, setKeys s ks) else (n, s)) :: updSec rest sec ks := rfl

theorem lookupSec_not_mem {s : IniSection} {k : String} (h : k ∉ secKeys s) :
    lookupSec s k = none := by
  induction s with
  | nil => rfl
  | cons p rest ih =>
    obtain ⟨k0, v0⟩ := p
    simp only [secKeys_cons, List.mem_cons, not_or] at h
    rw [lookupSec_cons, if_neg h.1, ih h.2]

theorem lookupSec_isSome_of_mem {s : IniSection} {k : String} (h : k ∈ secKeys s) :
    ∃ w, lookupSec s k = some w := by
  induction s with
  | nil => simp at h
  | cons p rest ih =>
    obtain ⟨k0, v0⟩ := p
    by_cases hk : k = k0
    · exact ⟨v0, by rw [lookupSec_cons, if_pos hk]⟩
    · have hr : k ∈ secKeys rest := by
        rcases List.mem_cons.mp h with h1 | h2
        · exact absurd h1 hk
        · exact h2
      obtain ⟨w, hw⟩ := ih hr
      exact ⟨w, by rw [lookupSec_cons, if_neg hk, hw]⟩

theorem lookupSec_app (s t : IniSection) (k : String) :
    lookupSec (s ++ t) k
      = match lookupSec s k with
        | some v => some v
        | none => lookupSec t k := by
  induction s with
  | nil => simp
  | cons p rest ih =>
    obtain ⟨k0, v0⟩ := p
    by_cases hk : k = k0
    · simp [hk]
    · simpa [hk] using ih

theorem lookupSec_map_keyfun (s : IniSection) (k v k' : String) :
    lookupSec (s.map (fun p => if p.1 = k then (k, v) else p)) k'
      = if k' = k then (lookupSec s k).map (fun _ => v) else lookupSec s k' := by
  induction s with
  | nil => by_cases h : k' = k <;> simp [h]
  | cons p rest ih =>
    obtain ⟨k0, v0⟩ := p
    by_cases hp : k0 = k
    · subst hp
      by_cases hk : k' = k0 <;> simp [hk, ih]
    · have hkk0 : ¬k = k0 := fun hc => hp hc.symm
      by_cases hk' : k' = k0
      · have hkk : ¬k' = k := fun hc => hp (hk'.symm.trans hc)
        simp [hk', hkk, hkk0, hp]
      · simp [hk', hkk0, hp, ih]

theorem lookupSec_setKey (s : IniSection) (k v k' : String) :
    lookupSec (setKey s k v) k' = if k' = k then some v else lookupSec s k' := by
  by_cases hm : k ∈ secKeys s
  · rw [setKey_mem v hm, lookupSec_map_keyfun]
    by_cases hk : k' = k
    · obtain ⟨w, hw⟩ := lookupSec_isSome_of_mem hm
      simp [hk, hw]
    · simp [hk]
  · rw [setKey_not_mem v hm, lookupSec_app]
    by_cases hk : k' = k
    · subst hk
      rw [lookupSec_not_mem hm]
      simp
    · cases h : lookupSec s k' <;> simp [hk, h]

theorem lookupSec_setKeys (ks : List (String × String)) (k : String) :
    ∀ s, lookupSec (setKeys s ks) k
      = match lastVal ks k with
        | some v => some v
        | none => lookupSec s k := by
  induction ks with
  | nil => intro s; rfl
  | cons q ks' ih =>
    intro s
    obtain ⟨k0, v0⟩ := q
    have step : lookupSec (setKeys s ((k0, v0) :: ks')) k
        = match lastVal ks' k with
          | some v => some v
          | none => lookupSec (setKey s k0 v0) k := ih _
    rw [step, lookupSec_setKey]
    cases h : lastVal ks' k with
    | some v => simp [h]
    | none =>
      by_cases hk : k = k0
      · subst hk
        simp [h]
      · simp [h, hk]

theorem lookupDoc_not_mem {d : Doc} {sec : String} (k : String) (h : sec ∉ docSecs d) :
    lookupDoc d sec k = none := by
  induction d with
  | nil => rfl
  | cons p rest ih =>
    obtain ⟨n, s⟩ := p
    simp only [docSecs_cons, List.mem_cons, not_or] at h
    rw [lookupDoc_cons, if_neg h.1, ih h.2]

theorem lookupDoc_app (d e : Doc) (sec k : String) :
    lookupDoc (d ++ e) sec k
      = if sec ∈ docSecs d then lookupDoc d sec k else lookupDoc e sec k := by
  induction d with
  | nil => simp
  | cons p rest ih =>
    obtain ⟨n, s⟩ := p
    by_cases hs : sec = n
    · simp [hs]
    · by_cases hm : sec ∈ docSecs rest <;> simp [hs, hm, ih]

theorem lookupDoc_updSec_other {d : Doc} {sec n : String}
    (ks : List (String × String)) (k : String) (hne : sec ≠ n) :
    lookupDoc (updSec d n ks) sec k = lookupDoc d sec k := by
  induction d with
  | nil => rfl
  | cons p rest ih =>
    obtain ⟨m, s⟩ := p
    rw [updSec_cons]
    by_cases hm : m = n
    · have hsm : ¬sec = m := fun hc => hne (hc.trans hm)
      simp [hm, hne, ih]
    · by_cases hs : sec = m <;> simp [hm, hs, ih]

theorem lookupDoc_updSec_self {d : Doc} {sec : String}
    (ks : List (String × String)) (k : String) (h : sec ∈ docSecs d) :
    lookupDoc (updSec d sec ks) sec k
      = match lastVal ks k with
        | some v => some v
        | none => lookupDoc d sec k := by
  induction d with
  | nil => simp at h
  | cons p rest ih =>
    obtain ⟨m, s⟩ := p
    rw [updSec_cons]
    by_cases hm : m = sec
    · subst hm
      simp [lookupSec_setKeys]
    · have hrest : sec ∈ docSecs rest := by
        rcases List.mem_cons.mp h with h1 | h2
        · exact absurd h1.symm hm
        · exact h2
      have hsm : ¬sec = m := fun hc => hm hc.symm
      simp [hm, hsm, ih hrest]

theorem lookupDoc_applySection (d : Doc) (n : String) (ks : List (String × String))
    (sec k : String) :
    lookupDoc (applySection d n ks) sec k
      = if sec = n then
          (match lastVal ks k with
           | some v => some v
           | none => lookupDoc d sec k)
        else lookupDoc d sec k := by
  rw [applySection_eq]
  by_cases hn : n ∈ docSecs d
  · rw [if_pos hn]
    by_cases hs : sec = n
    · subst hs
      rw [if_pos rfl, lookupDoc_updSec_self ks k hn]
    · rw [if_neg hs, lookupDoc_updSec_other ks k hs]
  · rw [if_neg hn, lookupDoc_app]
    by_cases hs : sec = n
    · subst hs
      rw [if_neg hn, if_pos rfl, lookupDoc_not_mem k hn]
      simp [lookupSec_setKeys]
    · by_cases hd : sec ∈ docSecs d
      · rw [if_pos hd, if_neg hs]
      · rw [if_neg hd, if_neg hs, lookupDoc_not_mem k hd]
        simp [hs]

theorem lookupDoc_applySettings (o : Doc) (sec k : String) :
    ∀ d, lookupDoc (applySettings d o) sec k
      = match lastValDoc o sec k with
        | some v => some v
        | none => lookupDoc d sec k := by
  induction o with
  | nil => intro d; rfl
  | cons q o' ih =>
    intro d
    obtain ⟨n, ks⟩ := q
    have step : lookupDoc (applySettings d ((n, ks) :: o')) sec k
        = match lastValDoc o' sec k with
          | some v => some v
          | none => lookupDoc (applySection d n ks) sec k := ih _
    rw [step, lookupDoc_applySection]
    cases h : lastValDoc o' sec k with
    | some v => simp [h]
    | none =>
      by_cases hs : sec = n
      · subst hs
        simp only [lastValDoc_cons, h, if_pos rfl]
        cases lastVal ks k <;> simp
      · simp [h, hs]

theorem mem_docSecs_applySettings (o : Doc) (sec : String) :
    ∀ d, sec ∈ docSecs (applySettings d o) ↔ sec ∈ docSecs d ∨ sec ∈ docSecs o := by
  induction o with
  | nil =>
    intro d
    show sec ∈ docSecs d ↔ sec ∈ docSecs d ∨ sec ∈ docSecs ([] : Doc)
    simp
  | cons q o' ih =>
    intro d
    rw [show applySettings d (q :: o') = applySettings (applySection d q.1 q.2) o' from rfl,
      ih]
    rw [mem_docSecs_applySection]
    simp only [docSecs_cons, List.mem_cons]
    tauto

theorem lastVal_not_mem {ks : List (String × String)} {k : String}
    (h : k ∉ secKeys ks) : lastVal ks k = none := by
  induction ks with
  | nil => rfl
  | cons q rest ih =>
    obtain ⟨k0, v0⟩ := q
    simp only [secKeys_cons, List.mem_cons, not_or] at h
    rw [lastVal_cons, ih h.2, if_neg h.1]

theorem lastVal_eq_lookupSec {ks : List (String × String)} (k : String)
    (h : NodupKeys ks) : lastVal ks k = lookupSec ks k := by
  induction ks with
  | nil => rfl
  | cons q rest ih =>
    obtain ⟨k0, v0⟩ := q
    have hq : k0 ∉ secKeys rest := (List.nodup_cons.mp h).1
    have hrest := ih ((List.nodup_cons.mp h).2)
    by_cases hk : k = k0
    · subst hk
      rw [lastVal_cons, lastVal_not_mem hq]
      simp
    · rw [lastVal_cons, hrest]
      cases hl : lookupSec rest k <;> simp [hk, hl]

theorem lastValDoc_eq_lookupDoc {o : Doc} (sec k : String) (h : DocWF o) :
    lastValDoc o sec k = lookupDoc o sec k := by
  induction o with
  | nil => rfl
  | cons q o' ih =>
    obtain ⟨n, ks⟩ := q
    have hq : n ∉ docSecs o' := (List.nodup_cons.mp h.1).1
    have ho' : DocWF o' :=
      ⟨(List.nodup_cons.mp h.1).2, fun p hp => h.2 p (List.mem_cons_of_mem _ hp)⟩
    have hqk : NodupKeys ks := h.2 (n, ks) (List.mem_cons_self _ _)
    by_cases hs : sec = n
    · subst hs
      rw [lastValDoc_cons, ih ho', lookupDoc_not_mem k hq]
      simp [lastVal_eq_lookupSec k hqk]
    · rw [lastValDoc_cons, ih ho']
      cases hl : lookupDoc o' sec k <;> simp [hs, hl]

theorem applySettings_lookup_override {o : Doc} (d : Doc) {sec k v : String}
    (hwf : DocWF o) (h : lookupDoc o sec k = some v) :
    lookupDoc (applySettings d o) sec k = some v := by
  rw [lookupDoc_applySettings, lastValDoc_eq_lookupDoc sec k hwf, h]

theorem applySettings_lookup_frame {o : Doc} (d : Doc) {sec k : String}
    (hwf : DocWF o) (h : lookupDoc o sec k = none) :
    lookupDoc (applySettings d o) sec k = lookupDoc d sec k := by
  rw [lookupDoc_applySettings, lastValDoc_eq_lookupDoc sec k hwf, h]

example : applySettings [("S", [("k", "1")])] [("S", [("k", "2"), ("m", "3")])]
    = [("S", [("k", "2"), ("m", "3")])] := by decide

example : from_engine_quality6 "99" = some "Ultra" := by decide

example : from_engine_quality6 "3" = some "High" := by decide

example : backupFileName = "Engine.ini.backup" := by decide

example : switch_to_engine "Fog" true = "True" := by decide

example : switch_to_engine "Film Grain" true = "1" := by decide

/-! ## The `create_engine_ini` preset loop agrees with the overlay loop -/

theorem filter_ne_of_not_mem {d : Doc} {sec : String} (h : sec ∉ docSecs d) :
    d.filter (fun p => p.1 ≠ sec) = d := by
  rw [List.filter_eq_self]
  intro p hp
  have hne : ¬p.1 = sec := fun hc => h (mem_docSecs.mpr ⟨p, hp, hc⟩)
  simp [hne]

theorem resetSection_eq_ensure {d : Doc} {sec : String} (h : sec ∉ docSecs d) :
    resetSection d sec = ensureSection d sec := by
  unfold resetSection ensureSection
  rw [if_neg (fun hc => h ((hasSection_eq_mem d sec).mp hc)), filter_ne_of_not_mem h]

theorem addPresetDoc_eq_applySettings :
    ∀ (p : Doc), (docSecs p).Nodup → ∀ d, (∀ q ∈ p, q.1 ∉ docSecs d) →
      addPresetDoc d p = applySettings d p := by
  intro p
  induction p with
  | nil => intro _ d _; rfl
  | cons q p' ih =>
    intro hnd d hd
    obtain ⟨sec, ks⟩ := q
    have hsec : sec ∉ docSecs d := hd (sec, ks) (List.mem_cons_self _ _)
    have hnd' : (docSecs p').Nodup := (List.nodup_cons.mp hnd).2
    have hsecp : sec ∉ docSecs p' := (List.nodup_cons.mp hnd).1
    have step : addPresetDoc d ((sec, ks) :: p')
        = addPresetDoc (applySection d sec ks) p' := by
      show addPresetDoc (applyKeys (resetSection d sec) sec ks) p' = _
      rw [resetSection_eq_ensure hsec]
      rfl
    have hd' : ∀ r ∈ p', r.1 ∉ docSecs (applySection d sec ks) := by
      intro r hr
      rw [mem_docSecs_applySection]
      push_neg
      exact ⟨hd r (List.mem_cons_of_mem _ hr),
        fun hc => hsecp (mem_docSecs.mpr ⟨r, hr, hc⟩)⟩
    rw [step, ih hnd' _ hd']
    rfl

theorem create_engine_doc_eq {p : Doc} (hp : DocWF p) (tweaks : Doc) (tw : Bool) :
    create_engine_doc p tweaks tw
      = if tw then applySettings (applySettings [] p) tweaks
        else applySettings [] p := by
  unfold create_engine_doc
  rw [addPresetDoc_eq_applySettings p hp.1 [] (by simp)]

theorem lookupDoc_applySettings_nil {p : Doc} (hp : DocWF p) (sec k : String) :
    lookupDoc (applySettings [] p) sec k = lookupDoc p sec k := by
  rw [lookupDoc_applySettings, lastValDoc_eq_lookupDoc sec k hp]
  cases lookupDoc p sec k <;> rfl

theorem mem_docSecs_applySettings_nil (p : Doc) (sec : String) :
    sec ∈ docSecs (applySettings [] p) ↔ sec ∈ docSecs p := by
  rw [mem_docSecs_applySettings]
  simp

/-! ## Frame lemmas for the filesystem operations -/

theorem apply_custom_settings_frame (fs : FS) (o : Doc) :
    (apply_custom_settings fs o).backupFile = fs.backupFile
    ∧ (apply_custom_settings fs o).dirExists = fs.dirExists
    ∧ (apply_custom_settings fs o).mode = fs.mode :=
  ⟨rfl, rfl, rfl⟩

theorem set_read_only_engineIni (fs : FS) (b : Bool) :
    (set_read_only fs b).engineIni = fs.engineIni := by
  cases hfs : fs.engineIni <;> cases b <;> simp [set_read_only, hfs]

theorem set_read_only_backupFile (fs : FS) (b : Bool) :
    (set_read_only fs b).backupFile = fs.backupFile := by
  cases hfs : fs.engineIni <;> cases b <;> simp [set_read_only, hfs]

theorem set_read_only_dirExists (fs : FS) (b : Bool) :
    (set_read_only fs b).dirExists = fs.dirExists := by
  cases hfs : fs.engineIni <;> cases b <;> simp [set_read_only, hfs]

theorem set_read_only_mode_true {fs : FS} {d : Doc} (h : fs.engineIni = some d) :
    (set_read_only fs true).mode = fs.mode &&& permMaskNotWrite := by
  simp [set_read_only, h]

theorem set_read_only_mode_false {fs : FS} {d : Doc} (h : fs.engineIni = some d) :
    (set_read_only fs false).mode = fs.mode ||| 128 := by
  simp [set_read_only, h]

theorem backup_existing_config_some {fs : FS} {d : Doc} (h : fs.engineIni = some d) :
    backup_existing_config fs = ({ fs with backupFile := some d }, some backupFileName) := by
  simp [backup_existing_config, h]

theorem backup_existing_config_none {fs : FS} (h : fs.engineIni = none) :
    backup_existing_config fs = (fs, none) := by
  simp [backup_existing_config, h]

theorem create_engine_ini_ok {cfg : TomlConfig} {preset : String} {p : Doc}
    (tw : Bool) (fs : FS) (h : get_performance_preset cfg preset = .ok p) :
    create_engine_ini cfg preset tw fs
      = .ok { fs with engineIni := some (create_engine_doc p cfg.engine_tweaks tw) } := by
  unfold create_engine_ini
  rw [h]
  rfl

theorem create_engine_ini_error {cfg : TomlConfig} {preset : String} {e : String}
    (tw : Bool) (fs : FS) (h : get_performance_preset cfg preset = .error e) :
    create_engine_ini cfg preset tw fs = .error e := by
  unfold create_engine_ini
  rw [h]
  rfl

/-! ## Bit-level lemmas for `set_read_only` -/

theorem permMask_testBit_lt : ∀ i, i < 16 → permMaskNotWrite.testBit i = decide (i ≠ 7) := by
  decide

theorem testBit_and_mask_7 (m : Nat) : (m &&& permMaskNotWrite).testBit 7 = false := by
  rw [Nat.testBit_and, show permMaskNotWrite.testBit 7 = false from by decide,
    Bool.and_false]

theorem testBit_and_mask_ne {m : Nat} (hm : m < 65536) {i : Nat} (hi : i ≠ 7) :
    (m &&& permMaskNotWrite).testBit i = m.testBit i := by
  rw [Nat.testBit_and]
  by_cases hlt : i < 16
  · have h1 : permMaskNotWrite.testBit i = true := by
      rw [permMask_testBit_lt i hlt]
      exact decide_eq_true hi
    rw [h1, Bool.and_true]
  · have h16 : (65536 : Nat) ≤ 2 ^ i := by
      calc (65536 : Nat) = 2 ^ 16 := by norm_num
        _ ≤ 2 ^ i := Nat.pow_le_pow_right (by norm_num) (by omega)
    have hm' : m.testBit i = false :=
      Nat.testBit_lt_two_pow (Nat.lt_of_lt_of_le hm h16)
    have hmask' : permMaskNotWrite.testBit i = false :=
      Nat.testBit_lt_two_pow
        (Nat.lt_of_lt_of_le (show permMaskNotWrite < 65536 by decide) h16)
    rw [hm', hmask']
    rfl

theorem testBit_or128_7 (m : Nat) : (m ||| 128).testBit 7 = true := by
  rw [Nat.testBit_or, show (128 : Nat).testBit 7 = true from by decide, Bool.or_true]

theorem testBit_or128_ne {m i : Nat} (hi : i ≠ 7) : (m ||| 128).testBit i = m.testBit i := by
  rw [Nat.testBit_or]
  have h128 : (128 : Nat).testBit i = false := by
    rw [show (128 : Nat) = 2 ^ 7 from by norm_num]
    exact Nat.testBit_two_pow_of_ne (fun hc => hi hc.symm)
  rw [h128, Bool.or_false]

/-! ## Parsing lemma for the ordinal converter -/

theorem pyInt_digits {s : String} (h1 : s.data ≠ []) (h2 : s.data.all Char.isDigit = true) :
    pyInt s = some ((digitsToNat s.data : Int)) := by
  rw [pyInt, if_pos ⟨h1, h2⟩]

theorem get_performance_preset_balanced {cfg : TomlConfig} {bal : Doc}
    (hbal : dictGet cfg.presets "balanced" = some bal) :
    get_performance_preset cfg "balanced" = .ok bal := by
  simp [get_performance_preset, hbal]

theorem get_performance_preset_unknown {cfg : TomlConfig} {bal : Doc} {name : String}
    (hbal : dictGet cfg.presets "balanced" = some bal)
    (hnone : dictGet cfg.presets name = none) :
    get_performance_preset cfg name = .ok bal := by
  simp [get_performance_preset, hbal, hnone]

theorem get_performance_preset_known {cfg : TomlConfig} {bal d : Doc} {name : String}
    (hbal : dictGet cfg.presets "balanced" = some bal)
    (hsome : dictGet cfg.presets name = some d) :
    get_performance_preset cfg name = .ok d := by
  simp [get_performance_preset, hbal, hsome]

theorem cliCreateCommand_ok {cfg : TomlConfig} {preset : String} {p : Doc}
    (noTweaks ro : Bool) (fs : FS) (hgp : get_performance_preset cfg preset = .ok p) :
    cliCreateCommand cfg preset noTweaks ro fs
      = .ok (if ro then
              set_read_only
                { (backup_existing_config fs).1 with
                  engineIni := some (create_engine_doc p cfg.engine_tweaks (!noTweaks)) } true
             else
              { (backup_existing_config fs).1 with
                engineIni := some (create_engine_doc p cfg.engine_tweaks (!noTweaks)) }) := by
  unfold cliCreateCommand
  rw [create_engine_ini_ok (!noTweaks) _ hgp]

theorem cliCreateCommand_error {cfg : TomlConfig} {preset : String} {e : String}
    (noTweaks ro : Bool) (fs : FS)
    (hgp : get_performance_preset cfg preset = .error e) :
    cliCreateCommand cfg preset noTweaks ro fs = .error e := by
  unfold cliCreateCommand
  rw [create_engine_ini_error (!noTweaks) _ hgp]

/-! ## Claims -/

/-- C1 (amended): the `create` command and the save flow copy the prior file
content to the backup before writing, so afterwards the backup holds the
content from immediately before their first write (the save flow's optional
tweaks write is not preceded by a fresh backup), while the CLI `custom`
command writes with no backup at all, leaving the backup file untouched. -/
theorem c1_backup_order (cfg : TomlConfig) (preset : String)
    (noTweaks ro : Bool) (uiS : Doc) (tw ro2 : Bool) (sec : String)
    (ks : List (String × String)) (fs : FS) (d : Doc)
    (h : fs.engineIni = some d) :
    (∀ fs2, cliCreateCommand cfg preset noTweaks ro fs = .ok fs2 →
        fs2.backupFile = some d)
    ∧ (tuiSaveChanges cfg uiS tw ro2 fs).backupFile = some d
    ∧ (cliCustomCommand fs sec ks).backupFile = fs.backupFile := by
  have hb1 : (backup_existing_config fs).1 = { fs with backupFile := some d } := by
    rw [backup_existing_config_some h]
  refine ⟨?_, ?_, rfl⟩
  · intro fs2 hfs2
    cases hgp : get_performance_preset cfg preset with
    | error e =>
      rw [cliCreateCommand_error noTweaks ro fs hgp] at hfs2
      exact Except.noConfusion hfs2
    | ok p =>
      rw [cliCreateCommand_ok noTweaks ro fs hgp] at hfs2
      injection hfs2 with heq
      rw [← heq]
      cases ro with
      | true =>
        rw [if_pos rfl, set_read_only_backupFile]
        show ((backup_existing_config fs).1).backupFile = some d
        rw [hb1]
      | false =>
        rw [if_neg (by simp)]
        show ((backup_existing_config fs).1).backupFile = some d
        rw [hb1]
  · show (set_read_only
        (if tw then
          apply_custom_settings (apply_custom_settings (backup_existing_config fs).1 uiS)
            cfg.engine_tweaks
         else apply_custom_settings (backup_existing_config fs).1 uiS) ro2).backupFile
      = some d
    rw [set_read_only_backupFile]
    cases tw with
    | true =>
      rw [if_pos rfl]
      show ((backup_existing_config fs).1).backupFile = some d
      rw [hb1]
    | false =>
      rw [if_neg (by simp)]
      show ((backup_existing_config fs).1).backupFile = some d
      rw [hb1]

/-- Witness for C1 (amended) at a concrete state: the save flow's backup holds
the pre-save content. -/
theorem c1_backup_order_witness :
    (tuiSaveChanges ⟨[("balanced", [("S", [("a", "1")])])], [("T", [("b", "2")])], "sp", "gp"⟩
        [("Y", [("b", "2")])] true false
        ⟨some [("X", [("x", "9")])], none, true, 420⟩).backupFile
      = some [("X", [("x", "9")])] :=
  (c1_backup_order
      ⟨[("balanced", [("S", [("a", "1")])])], [("T", [("b", "2")])], "sp", "gp"⟩
      "balanced" false false [("Y", [("b", "2")])] true false "S" []
      ⟨some [("X", [("x", "9")])], none, true, 420⟩ [("X", [("x", "9")])] rfl).2.1

/-- C1 counterexample: the CLI `custom` command mutates the target file while
leaving the backup untouched, so after its write the backup does not hold the
file content from immediately before the write. -/
theorem c1_counterexample :
    (cliCustomCommand ⟨some [("S", [("a", "1")])], none, true, 420⟩ "T" [("b", "2")]).engineIni
      ≠ (⟨some [("S", [("a", "1")])], none, true, 420⟩ : FS).engineIni
    ∧ (cliCustomCommand ⟨some [("S", [("a", "1")])], none, true, 420⟩ "T" [("b", "2")]).backupFile
      = none := by
  constructor
  · decide
  · rfl

/-- C2: `apply_custom_settings` writes back exactly the merge of the overlay
on top of the on-disk document: overlay pairs take the overlay value, pairs
present only on disk keep their value, overlay sections absent on disk are
created, and no pre-existing section is deleted. -/
theorem c2_apply_overlay (fs : FS) (o : Doc) (hwf : DocWF o) :
    (apply_custom_settings fs o).engineIni = some (applySettings (readDoc fs) o)
    ∧ (∀ sec k v, lookupDoc o sec k = some v →
        lookupDoc (applySettings (readDoc fs) o) sec k = some v)
    ∧ (∀ sec k, lookupDoc o sec k = none →
        lookupDoc (applySettings (readDoc fs) o) sec k = lookupDoc (readDoc fs) sec k)
    ∧ (∀ sec, sec ∈ docSecs o → sec ∈ docSecs (applySettings (readDoc fs) o))
    ∧ (∀ sec, sec ∈ docSecs (readDoc fs) → sec ∈ docSecs (applySettings (readDoc fs) o)) := by
  refine ⟨rfl, ?_, ?_, ?_, ?_⟩
  · intro sec k v hov
    exact applySettings_lookup_override _ hwf hov
  · intro sec k hno
    exact applySettings_lookup_frame _ hwf hno
  · intro sec hs
    exact (mem_docSecs_applySettings o sec _).mpr (Or.inr hs)
  · intro sec hs
    exact (mem_docSecs_applySettings o sec _).mpr (Or.inl hs)

/-- Witness for C2 at the spec's example: the on-disk X section is preserved
and the overlay Y section is added. -/
theorem c2_witness :
    DocWF [("Y", [("b", "2")])]
    ∧ (apply_custom_settings ⟨some [("X", [("a", "1")])], none, true, 420⟩
        [("Y", [("b", "2")])]).engineIni
      = some [("X", [("a", "1")]), ("Y", [("b", "2")])] := by
  constructor
  · decide
  · rw [(c2_apply_overlay ⟨some [("X", [("a", "1")])], none, true, 420⟩
      [("Y", [("b", "2")])] (by decide)).1]
    decide

/-- C3: `create_engine_ini` fully overwrites the target file with the resolved
preset, with the tweaks merged on top when requested: the result holds exactly
the sections and keys of those fragments, independent of anything previously
in the file. -/
theorem c3_create_overwrites (cfg : TomlConfig) (preset : String) (p : Doc)
    (tw : Bool) (_fs : FS) (hp : get_performance_preset cfg preset = .ok p)
    (hwfp : DocWF p) (hwft : DocWF cfg.engine_tweaks) :
    (∀ fs2 : FS, create_engine_ini cfg preset tw fs2
        = .ok { fs2 with engineIni := some (create_engine_doc p cfg.engine_tweaks tw) })
    ∧ (∀ sec k, (lookupDoc (create_engine_doc p cfg.engine_tweaks tw) sec k).isSome
        ↔ ((lookupDoc p sec k).isSome
           ∨ (tw = true ∧ (lookupDoc cfg.engine_tweaks sec k).isSome)))
    ∧ (∀ sec, sec ∈ docSecs (create_engine_doc p cfg.engine_tweaks tw)
        ↔ (sec ∈ docSecs p ∨ (tw = true ∧ sec ∈ docSecs cfg.engine_tweaks)))
    ∧ (∀ sec k v, tw = true → lookupDoc cfg.engine_tweaks sec k = some v →
        lookupDoc (create_engine_doc p cfg.engine_tweaks tw) sec k = some v)
    ∧ (∀ sec k, lookupDoc cfg.engine_tweaks sec k = none →
        lookupDoc (create_engine_doc p cfg.engine_tweaks tw) sec k = lookupDoc p sec k) := by
  refine ⟨fun fs2 => create_engine_ini_ok tw fs2 hp, ?_, ?_, ?_, ?_⟩
  all_goals cases tw
  case _ =>
    intro sec k
    rw [create_engine_doc_eq hwfp, if_neg (by simp), lookupDoc_applySettings_nil hwfp]
    simp
  case _ =>
    intro sec k
    rw [create_engine_doc_eq hwfp, if_pos rfl, lookupDoc_applySettings,
      lastValDoc_eq_lookupDoc _ _ hwft, lookupDoc_applySettings_nil hwfp]
    cases lookupDoc cfg.engine_tweaks sec k <;> simp
  case _ =>
    intro sec
    rw [create_engine_doc_eq hwfp, if_neg (by simp), mem_docSecs_applySettings_nil]
    simp
  case _ =>
    intro sec
    rw [create_engine_doc_eq hwfp, if_pos rfl, mem_docSecs_applySettings,
      mem_docSecs_applySettings_nil]
    simp
  case _ =>
    intro sec k v htw
    exact absurd htw (by simp)
  case _ =>
    intro sec k v _ hv
    rw [create_engine_doc_eq hwfp, if_pos rfl, lookupDoc_applySettings,
      lastValDoc_eq_lookupDoc _ _ hwft, hv]
  case _ =>
    intro sec k _
    rw [create_engine_doc_eq hwfp, if_neg (by simp), lookupDoc_applySettings_nil hwfp]
  case _ =>
    intro sec k hv
    rw [create_engine_doc_eq hwfp, if_pos rfl, lookupDoc_applySettings,
      lastValDoc_eq_lookupDoc _ _ hwft, hv, lookupDoc_applySettings_nil hwfp]

/-- Witness for C3 at the spec's example: `create("balanced", include_tweaks
= False)` fully replaces a target containing an unrelated X section. -/
theorem c3_witness :
    create_engine_ini
      ⟨[("balanced", [("S", [("a", "1")])])], [("T", [("b", "2")])], "sp", "gp"⟩
      "balanced" false ⟨some [("X", [("x", "9")])], none, true, 420⟩
      = .ok ⟨some [("S", [("a", "1")])], none, true, 420⟩ := by
  have h := (c3_create_overwrites
      ⟨[("balanced", [("S", [("a", "1")])])], [("T", [("b", "2")])], "sp", "gp"⟩
      "balanced" [("S", [("a", "1")])] false
      ⟨some [("X", [("x", "9")])], none, true, 420⟩ rfl (by decide) (by decide)).1
  rw [h ⟨some [("X", [("x", "9")])], none, true, 420⟩]
  rfl

/-- C4: the UI-to-engine conversion serialises the two fog-family switches
(mapped to the engine keys `r.Fog` and `r.VolumetricFog`) to the words
`"True"`/`"False"`, and every other boolean switch to `"1"`/`"0"`, for the
same switch value. -/
theorem c4_fog_switch_serialisation :
    dictGet switchConfigMap "Fog" = some "r.Fog"
    ∧ dictGet switchConfigMap "Volumetric Fog" = some "r.VolumetricFog"
    ∧ ∀ b : Bool,
        switch_to_engine "Fog" b = (if b then "True" else "False")
        ∧ switch_to_engine "Volumetric Fog" b = (if b then "True" else "False")
        ∧ switch_to_engine "Chromatic Aberration" b = (if b then "1" else "0")
        ∧ switch_to_engine "Disable Distortion Effects" b = (if b then "1" else "0")
        ∧ switch_to_engine "Film Grain" b = (if b then "1" else "0")
        ∧ switch_to_engine "Grain Quantization" b = (if b then "1" else "0") := by
  refine ⟨by decide, by decide, ?_⟩
  intro b
  cases b <;> decide

/-- C5: every out-of-range ordinal engine string (a digit string whose value
is at least the table size 6) fed to the 6-level quality converter clamps to
the maximum label `"Ultra"` and never raises. -/
theorem c5_from_engine_clamps (s : String) (h1 : s.data ≠ [])
    (h2 : s.data.all Char.isDigit = true) (h6 : 6 ≤ digitsToNat s.data) :
    from_engine_quality6 s = some "Ultra" := by
  have hp : pyInt s = some ((digitsToNat s.data : Int)) := pyInt_digits h1 h2
  have h5 : (5 : Int) ≤ (digitsToNat s.data : Int) := by
    exact_mod_cast Nat.le_trans (by norm_num) h6
  have hmin : min ((digitsToNat s.data : Int)) 5 = 5 := min_eq_right h5
  rw [from_engine_quality6, hp]
  show pyListGet qualityLabels6 (min ((digitsToNat s.data : Int)) 5) = some "Ultra"
  rw [hmin]
  decide

/-- Witness for C5 at the spec's example input `"99"`. -/
theorem c5_witness :
    ("99".data ≠ [] ∧ "99".data.all Char.isDigit = true ∧ 6 ≤ digitsToNat "99".data)
    ∧ from_engine_quality6 "99" = some "Ultra" :=
  ⟨⟨by decide, by decide, by decide⟩,
   c5_from_engine_clamps "99" (by decide) (by decide) (by decide)⟩

/-- C6: a preset name missing from the catalog silently resolves to the same
document as `"balanced"` (no error is raised), while a known name returns its
own catalog entry. -/
theorem c6_unknown_preset_fallback (cfg : TomlConfig) (bal : Doc)
    (hbal : dictGet cfg.presets "balanced" = some bal) :
    (∀ name, dictGet cfg.presets name = none →
        get_performance_preset cfg name = get_performance_preset cfg "balanced"
        ∧ get_performance_preset cfg name = .ok bal)
    ∧ (∀ name d, dictGet cfg.presets name = some d →
        get_performance_preset cfg name = .ok d) := by
  constructor
  · intro name hnone
    rw [get_performance_preset_unknown hbal hnone, get_performance_preset_balanced hbal]
    exact ⟨rfl, rfl⟩
  · intro name d hsome
    exact get_performance_preset_known hbal hsome

/-- Witness for C6 on a concrete catalog with the spec's example name. -/
theorem c6_witness :
    get_performance_preset
        ⟨[("balanced", [("S", [("a", "1")])]), ("low", [("S", [("a", "0")])])],
         [], "sp", "gp"⟩ "nonexistent_name"
      = .ok [("S", [("a", "1")])]
    ∧ get_performance_preset
        ⟨[("balanced", [("S", [("a", "1")])]), ("low", [("S", [("a", "0")])])],
         [], "sp", "gp"⟩ "low"
      = .ok [("S", [("a", "0")])] :=
  ⟨((c6_unknown_preset_fallback
      ⟨[("balanced", [("S", [("a", "1")])]), ("low", [("S", [("a", "0")])])], [], "sp", "gp"⟩
      [("S", [("a", "1")])] rfl).1 "nonexistent_name" rfl).2,
   (c6_unknown_preset_fallback
      ⟨[("balanced", [("S", [("a", "1")])]), ("low", [("S", [("a", "0")])])], [], "sp", "gp"⟩
      [("S", [("a", "1")])] rfl).2 "low" [("S", [("a", "0")])] rfl⟩

/-- C7: if the target file exists, `backup_existing_config` copies its content
to the single deterministic backup path `Engine.ini.backup` (overwriting any
prior backup) and returns that path; if it does not exist it returns `None`
and does nothing. -/
theorem c7_backup (fs : FS) :
    backupFileName = "Engine.ini.backup"
    ∧ (∀ d, fs.engineIni = some d →
        backup_existing_config fs
          = ({ fs with backupFile := some d }, some "Engine.ini.backup"))
    ∧ (fs.engineIni = none → backup_existing_config fs = (fs, none)) := by
  refine ⟨by decide, ?_, ?_⟩
  · intro d hd
    rw [backup_existing_config_some hd,
      show backupFileName = "Engine.ini.backup" from by decide]
  · intro hn
    exact backup_existing_config_none hn

/-- Witness for C7: an existing file is copied over a stale backup. -/
theorem c7_witness :
    backup_existing_config ⟨some [("S", [("a", "1")])], some [("X", [])], true, 420⟩
      = ({ engineIni := some [("S", [("a", "1")])],
           backupFile := some [("S", [("a", "1")])],
           dirExists := true, mode := 420 }, some "Engine.ini.backup") :=
  (c7_backup _).2.1 [("S", [("a", "1")])] rfl

/-- C8 (amended): on an existing file `set_read_only` changes only the owner
write bit (clearing it for `True`, setting it for `False`) leaving all other
permission bits unchanged, and it is a no-op on a missing file; `True`
followed by `False` leaves every other bit unchanged and always sets the
owner write bit, hence restores the original mode exactly when the file was
originally owner-writable. -/
theorem c8_set_read_only (fs : FS) (hm : fs.mode < 65536) :
    (∀ d : Doc, fs.engineIni = some d →
      ((set_read_only fs true).mode.testBit 7 = false
       ∧ (∀ i, i ≠ 7 → (set_read_only fs true).mode.testBit i = fs.mode.testBit i)
       ∧ (set_read_only fs false).mode.testBit 7 = true
       ∧ (∀ i, i ≠ 7 → (set_read_only fs false).mode.testBit i = fs.mode.testBit i)
       ∧ (∀ i, i ≠ 7 →
           (set_read_only (set_read_only fs true) false).mode.testBit i
             = fs.mode.testBit i)
       ∧ (set_read_only (set_read_only fs true) false).mode.testBit 7 = true
       ∧ (fs.mode.testBit 7 = true →
           (set_read_only (set_read_only fs true) false).mode = fs.mode)))
    ∧ (fs.engineIni = none → ∀ b, set_read_only fs b = fs) := by
  constructor
  · intro d h
    have e1 : (set_read_only fs true).mode = fs.mode &&& permMaskNotWrite :=
      set_read_only_mode_true h
    have h2 : (set_read_only fs true).engineIni = some d := by
      rw [set_read_only_engineIni, h]
    have e2 : (set_read_only (set_read_only fs true) false).mode
        = (fs.mode &&& permMaskNotWrite) ||| 128 := by
      rw [set_read_only_mode_false h2, e1]
    refine ⟨?_, ?_, ?_, ?_, ?_, ?_, ?_⟩
    · rw [e1, testBit_and_mask_7]
    · intro i hi
      rw [e1, testBit_and_mask_ne hm hi]
    · rw [set_read_only_mode_false h, testBit_or128_7]
    · intro i hi
      rw [set_read_only_mode_false h, testBit_or128_ne hi]
    · intro i hi
      rw [e2, testBit_or128_ne hi, testBit_and_mask_ne hm hi]
    · rw [e2, testBit_or128_7]
    · intro h7
      apply Nat.eq_of_testBit_eq
      intro i
      by_cases hi : i = 7
      · subst hi
        rw [e2, testBit_or128_7, h7]
      · rw [e2, testBit_or128_ne hi, testBit_and_mask_ne hm hi]
  · intro hn b
    cases b <;> simp [set_read_only, hn]

/-- Witness for C8 (amended): protect-then-unprotect of a mode 0o644 file
restores the mode. -/
theorem c8_witness :
    (set_read_only (set_read_only ⟨some [], none, true, 420⟩ true) false).mode = 420 :=
  (((c8_set_read_only ⟨some [], none, true, 420⟩ (by norm_num)).1 [] rfl).2.2.2.2.2.2)
    (by decide)

/-- C8 counterexample: for a file that is initially read-only (mode 0o444),
`set_read_only(True)` then `set_read_only(False)` does not restore the
original owner write-permission bit — it sets it. -/
theorem c8_counterexample :
    (set_read_only (set_read_only ⟨some [], none, true, 292⟩ true) false).mode.testBit 7
      ≠ (⟨some [], none, true, 292⟩ : FS).mode.testBit 7 := by
  decide

/-- C9: the merge of setting documents is associative for well-formed
(dict-shaped) documents: `merge(a, merge(b, c)) = merge(merge(a, b), c)`. -/
theorem c9_merge_assoc (a b c : Doc) (_ha : DocWF a) (hb : DocWF b) (_hc : DocWF c) :
    applySettings a (applySettings b c) = applySettings (applySettings a b) c :=
  applySettings_assoc c b hb a

/-- Witness for C9 at concrete overlapping documents. -/
theorem c9_witness :
    (DocWF [("S", [("k", "1")])]
     ∧ DocWF [("S", [("k", "2"), ("m", "3")]), ("T", [("t", "1")])]
     ∧ DocWF [("S", [("k", "4")]), ("U", [("u", "9")])])
    ∧ applySettings [("S", [("k", "1")])]
        (applySettings [("S", [("k", "2"), ("m", "3")]), ("T", [("t", "1")])]
          [("S", [("k", "4")]), ("U", [("u", "9")])])
      = applySettings
          (applySettings [("S", [("k", "1")])]
            [("S", [("k", "2"), ("m", "3")]), ("T", [("t", "1")])])
          [("S", [("k", "4")]), ("U", [("u", "9")])] :=
  ⟨⟨by decide, by decide, by decide⟩,
   c9_merge_assoc _ _ _ (by decide) (by decide) (by decide)⟩

/-- C10: constructing the configuration manager unconditionally ensures the
config directory exists before any other operation, touching no other state;
when the directory already exists the construction changes nothing. -/
theorem c10_init_creates_dir (fs : FS) :
    (initConfigEffect fs).dirExists = true
    ∧ ((initConfigEffect fs).engineIni = fs.engineIni
       ∧ (initConfigEffect fs).backupFile = fs.backupFile
       ∧ (initConfigEffect fs).mode = fs.mode)
    ∧ (fs.dirExists = true → initConfigEffect fs = fs) := by
  refine ⟨rfl, ⟨rfl, rfl, rfl⟩, ?_⟩
  intro h
  unfold initConfigEffect
  cases fs
  simp_all

/-- Witness for C10 at a state whose directory does not yet exist and one
where it does. -/
theorem c10_witness :
    (initConfigEffect ⟨none, none, false, 0⟩).dirExists = true
    ∧ initConfigEffect ⟨none, none, true, 420⟩ = (⟨none, none, true, 420⟩ : FS) :=
  ⟨(c10_init_creates_dir ⟨none, none, false, 0⟩).1,
   (c10_init_creates_dir ⟨none, none, true, 420⟩).2.2 rfl⟩

end ClairConfig
